import Mathlib

/-!
Verification of the buck2 incremental-computation core against its
specification.  The development shallowly embeds the Rust sources:

* `src/app/buck2_event_observer/src/io_state.rs` — word wrapping and
  in-flight I/O counter filtering for the console renderer;
* `src/starlark-rust/starlark/src/values/layout/complex.rs` — the
  `ValueOfComplex` wrapper over mutable/frozen starlark values;
* `src/dice/dice/src/introspection/mod.rs` — introspection entry points of
  the DICE graph engine, together with the test keys `KeyA`/`KeyB`.

Parts of the DICE engine that the repository snapshot does not include
(the node store, scheduler, dependency tracker, and the two serialization
formats) are modelled from the specification; each such definition carries
a doc comment starting with `Modelled from the spec:`.
-/

namespace Buck2

/-! ## Generic character-list utilities

Rust strings are embedded as `List Char`; for the ASCII strings these
claims quantify over, Rust byte length coincides with character count.
-/

/-- Split a character list on every occurrence of the separator `c`,
mirroring `str::split(c)`: splitting the empty string gives one empty
field, and a trailing separator gives a trailing empty field. -/
def splitOnChar (c : Char) : List Char → List (List Char)
  | [] => [[]]
  | d :: rest =>
    if d = c then [] :: splitOnChar c rest
    else
      match splitOnChar c rest with
      | [] => [[d]]
      | l :: ls => (d :: l) :: ls

/-- Words of a line joined by single spaces, the shape `words_to_lines`
keeps its `current_line` accumulator in. -/
def joinSp : List (List Char) → List Char
  | [] => []
  | [w] => w
  | w :: v :: ws => w ++ ' ' :: joinSp (v :: ws)

/-! ## `words_to_lines` (src/app/buck2_event_observer/src/io_state.rs)

Direct embedding of the Rust loop: `current_line` is the accumulator,
each word either starts a line, is appended after a space, or flushes the
current line when appending would exceed `width`. -/

/-- Loop body of `words_to_lines`: processes remaining `words` with the
accumulated `current` line. -/
def words_to_lines_go (width : Nat) : List (List Char) → List Char → List (List Char)
  | [], current => if current.isEmpty then [] else [current]
  | w :: ws, current =>
    if current.isEmpty then words_to_lines_go width ws w
    else if current.length + 1 + w.length > width then
      current :: words_to_lines_go width ws w
    else
      words_to_lines_go width ws (current ++ ' ' :: w)

/-- `words_to_lines` from io_state.rs: place space-separated words on
lines of at most `width` characters (a lone over-long word is kept
whole). -/
def words_to_lines (words : List (List Char)) (width : Nat) : List (List Char) :=
  words_to_lines_go width words []

/-- A word as the renderer consumes it: non-empty, space-free, ASCII
(so that Rust's byte length is the character count). -/
def IsRenderWord (w : List Char) : Prop :=
  w ≠ [] ∧ ' ' ∉ w ∧ ∀ c ∈ w, c.toNat < 128

instance (w : List Char) : Decidable (IsRenderWord w) := by
  unfold IsRenderWord; infer_instance

/-! ## In-flight I/O counters (src/app/buck2_event_observer/src/io_state.rs) -/

/-- The I/O operation kinds counted by the daemon.  The type is declared
in `buck2_core::io_counters`; the variants are exactly those enumerated
by the `match` in `io_in_flight_non_zero_counters`. -/
inductive IoCounterKey where
  | Stat | Copy | Symlink | Hardlink | MkDir | ReadDir | ReadDirEden
  | RmDir | RmDirAll | StatEden | Chmod | ReadLink | Remove | Rename
  | Read | Write | Canonicalize | EdenSettle
deriving DecidableEq

/-- Modelled from the spec: `IoCounterKey::ALL` lives in `buck2_core`
outside this snapshot; it lists every variant once, here in the order of
the `match` arms of `io_in_flight_non_zero_counters`.  The claim is
stated relative to this order. -/
def IoCounterKey.ALL : List IoCounterKey :=
  [.Stat, .Copy, .Symlink, .Hardlink, .MkDir, .ReadDir, .ReadDirEden,
   .RmDir, .RmDirAll, .StatEden, .Chmod, .ReadLink, .Remove, .Rename,
   .Read, .Write, .Canonicalize, .EdenSettle]

/-- The in-flight counter fields of `buck2_data::Snapshot` read by
`io_in_flight_non_zero_counters` (u32 fields, embedded as `Nat`). -/
structure Snapshot where
  io_in_flight_stat : Nat
  io_in_flight_copy : Nat
  io_in_flight_symlink : Nat
  io_in_flight_hardlink : Nat
  io_in_flight_mk_dir : Nat
  io_in_flight_read_dir : Nat
  io_in_flight_read_dir_eden : Nat
  io_in_flight_rm_dir : Nat
  io_in_flight_rm_dir_all : Nat
  io_in_flight_stat_eden : Nat
  io_in_flight_chmod : Nat
  io_in_flight_read_link : Nat
  io_in_flight_remove : Nat
  io_in_flight_rename : Nat
  io_in_flight_read : Nat
  io_in_flight_write : Nat
  io_in_flight_canonicalize : Nat
  io_in_flight_eden_settle : Nat
deriving DecidableEq

/-- The `match key` expression inside `io_in_flight_non_zero_counters`:
the snapshot field holding the in-flight count for `key`. -/
def counterValue (snapshot : Snapshot) : IoCounterKey → Nat
  | .Stat => snapshot.io_in_flight_stat
  | .Copy => snapshot.io_in_flight_copy
  | .Symlink => snapshot.io_in_flight_symlink
  | .Hardlink => snapshot.io_in_flight_hardlink
  | .MkDir => snapshot.io_in_flight_mk_dir
  | .ReadDir => snapshot.io_in_flight_read_dir
  | .ReadDirEden => snapshot.io_in_flight_read_dir_eden
  | .RmDir => snapshot.io_in_flight_rm_dir
  | .RmDirAll => snapshot.io_in_flight_rm_dir_all
  | .StatEden => snapshot.io_in_flight_stat_eden
  | .Chmod => snapshot.io_in_flight_chmod
  | .ReadLink => snapshot.io_in_flight_read_link
  | .Remove => snapshot.io_in_flight_remove
  | .Rename => snapshot.io_in_flight_rename
  | .Read => snapshot.io_in_flight_read
  | .Write => snapshot.io_in_flight_write
  | .Canonicalize => snapshot.io_in_flight_canonicalize
  | .EdenSettle => snapshot.io_in_flight_eden_settle

/-- `io_in_flight_non_zero_counters` from io_state.rs: map every key of
`ALL` to its snapshot field, keep the strictly positive ones. -/
def io_in_flight_non_zero_counters (snapshot : Snapshot) :
    List (IoCounterKey × Nat) :=
  (IoCounterKey.ALL.map (fun key => (key, counterValue snapshot key))).filter
    (fun p => 0 < p.2)

/-! ## `ValueOfComplex` (src/starlark-rust/starlark/src/values/layout/complex.rs)

A starlark `Value` is embedded by the payload its heap slot holds: an
instance of the complex type `T`, an instance of its frozen form
`T::Frozen`, or any other value.  `downcast_ref::<T>` succeeds exactly on
the first shape and (after the lifetime cast) `downcast_ref::<T::Frozen>`
exactly on the second; the `unreachable!` arm of `unpack` is embedded as
`none`. -/

/-- A starlark value as seen by `ValueOfComplex`: parametrized by the
complex type `T`, its frozen form `F`, and the payloads `O` of every
other value. -/
inductive StarlarkValue (T F O : Type) where
  | mutComplex : T → StarlarkValue T F O
  | frozenComplex : F → StarlarkValue T F O
  | otherValue : O → StarlarkValue T F O

/-- `value.downcast_ref::<T>()`. -/
def downcastMut {T F O : Type} : StarlarkValue T F O → Option T
  | .mutComplex t => some t
  | _ => none

/-- `unsafe { value.cast_lifetime() }.downcast_ref::<T::Frozen>()`. -/
def downcastFrozen {T F O : Type} : StarlarkValue T F O → Option F
  | .frozenComplex f => some f
  | _ => none

/-- `ValueOfComplex<T>`: a raw value plus phantom type data; no invariant
is stored, exactly as in the source. -/
structure ValueOfComplex (T F O : Type) where
  value : StarlarkValue T F O

/-- `ValueOfComplex::unpack_value`: wrap the value iff one of the two
downcasts succeeds. -/
def unpack_value {T F O : Type} (value : StarlarkValue T F O) :
    Option (ValueOfComplex T F O) :=
  if (downcastMut value).isSome ∨ (downcastFrozen value).isSome then
    some ⟨value⟩
  else
    none

/-- `ValueOfComplex::unpack`: try the mutable downcast, then the frozen
one; `none` stands for the `unreachable!("validated at construction")`
branch. -/
def unpack {T F O : Type} (v : ValueOfComplex T F O) : Option (T ⊕ F) :=
  match downcastMut v.value with
  | some t => some (Sum.inl t)
  | none =>
    match downcastFrozen v.value with
    | some f => some (Sum.inr f)
    | none => none

/-- A concrete mutable complex value for the C10 witness. -/
def sampleValue : StarlarkValue Nat Nat Nat := StarlarkValue.mutComplex 7

/-- The wrapper `unpack_value` produces for `sampleValue`. -/
def sampleWrapped : ValueOfComplex Nat Nat Nat := ⟨sampleValue⟩

/-! ## Decimal rendering of indices -/

/-- Fuel-driven core of decimal rendering, most significant digit
first. -/
def natCharsAux : Nat → Nat → List Char
  | 0, _ => []
  | fuel + 1, n =>
    if n = 0 then []
    else natCharsAux fuel (n / 10) ++ [Char.ofNat (48 + n % 10)]

/-- Decimal rendering of a natural number (Rust `Display` for `u64`). -/
def natChars (n : Nat) : List Char :=
  if n = 0 then ['0'] else natCharsAux (n + 1) n

/-! ## The DICE engine (src/dice/dice/src/introspection/mod.rs)

`KeyA`/`KeyB` and their `compute` bodies come from the test module of
introspection/mod.rs.  The engine itself (node store, scheduler,
dependency tracker) is not part of this snapshot and is modelled from the
specification. -/

/-- The two key types of the introspection tests: `KeyA(usize)` and
`KeyB`. -/
inductive DiceKey where
  | KeyA : Nat → DiceKey
  | KeyB : DiceKey
deriving DecidableEq

/-- The key-type tag recorded for a node (the key's type name). -/
def keyTypeName : DiceKey → List Char
  | .KeyA _ => ['K', 'e', 'y', 'A']
  | .KeyB => ['K', 'e', 'y', 'B']

/-- The `Display` text of a key: both test keys render via their `Debug`
form, `KeyA(n)` and `KeyB`. -/
def displayKey : DiceKey → List Char
  | .KeyA n => ['K', 'e', 'y', 'A', '('] ++ natChars n ++ [')']
  | .KeyB => ['K', 'e', 'y', 'B']

/-- The requests issued by each key's `compute` routine, in program
order: `KeyA(n)` with `n > 0` requests `KeyA(n-1)`, `KeyA(0)` requests
`KeyB`, and `KeyB` requests nothing (from `KeyA::compute` and
`KeyB::compute` in introspection/mod.rs). -/
def requestsOf : DiceKey → List DiceKey
  | .KeyA n => if 0 < n then [.KeyA (n - 1)] else [.KeyB]
  | .KeyB => []

/-- `DetectCycles` from dice::api::cycles: the cycle-detection toggle
accepted at engine construction. -/
inductive DetectCycles where
  | Enabled
  | Disabled
deriving DecidableEq

/-- Modelled from the spec: the cancellation-policy toggle accepted at
engine construction, with values `{RunToCompletion, ExplicitCancel}`
(§6); the declaring module is outside this snapshot, which only shows
`WhichSpawner::ExplicitCancel` at the construction site. -/
inductive WhichSpawner where
  | RunToCompletion
  | ExplicitCancel
deriving DecidableEq

/-- Modelled from the spec: a committed node of the Node Store — its
key, the version it was computed at, its (unit) value, and the
dependency edges recorded during that computation (§3 Node). -/
structure NodeEntry where
  key : DiceKey
  version : Nat
  value : Unit
  deps : List DiceKey
deriving DecidableEq

/-- Modelled from the spec: the state owned by a legacy engine — the
Node Store's committed nodes, the table of keys currently
mid-computation, the current version, and the two construction toggles
(§3, §4.2). -/
structure DiceLegacyState where
  store : List NodeEntry
  running : List DiceKey
  version : Nat
  detectCycles : DetectCycles
  whichSpawner : WhichSpawner
deriving DecidableEq

/-- `DiceLegacy::builder().build(detect_cycles, which_spawner)`: a fresh
engine with an empty node store and no in-flight computations, recording
the two toggles. -/
def DiceLegacy.build (dc : DetectCycles) (ws : WhichSpawner) : DiceLegacyState :=
  { store := [], running := [], version := 0,
    detectCycles := dc, whichSpawner := ws }

/-- Modelled from the spec: the Dependency Tracker records one queried
key — appended unless already present (§4.4). -/
def recordDep {α : Type} [DecidableEq α] (deps : List α) (k : α) : List α :=
  if k ∈ deps then deps else deps ++ [k]

/-- Modelled from the spec: the edge set a computation commits — every
queried key in first-occurrence order, duplicates kept once (§4.4). -/
def recordDeps {α : Type} [DecidableEq α] (requests : List α) : List α :=
  requests.foldl recordDep []

/-- Whether the node store already holds a committed node for `k`. -/
def containsKey (store : List NodeEntry) (k : DiceKey) : Bool :=
  store.any (fun e => e.key == k)

/-- Modelled from the spec: the Evaluation Scheduler, sequentialized —
a cached key returns immediately; otherwise the key enters the
mid-computation table, its requests are evaluated recursively, and the
recorded edge set is committed atomically with the result, after which
the key leaves the mid-computation table (§4.3, §4.4).  `fuel` bounds
the recursion depth. -/
def evalKey : Nat → DiceKey → DiceLegacyState → DiceLegacyState
  | 0, _, st => st
  | fuel + 1, k, st =>
    if containsKey st.store k then st
    else
      let deps := recordDeps (requestsOf k)
      let entered : DiceLegacyState := { st with running := st.running ++ [k] }
      let after := deps.foldl (fun s d => evalKey fuel d s) entered
      { after with
          store := after.store ++ [⟨k, after.version, (), deps⟩],
          running := after.running.filter (fun r => decide (r ≠ k)) }

/-! ### The introspectable graph view -/

/-- Modelled from the spec: one node of the introspectable view — its
index, key-type tag, display text, and dependency index list (§4.7,
§6 binary format). -/
structure GraphNode where
  index : Nat
  keyType : List Char
  keyText : List Char
  deps : List Nat
deriving DecidableEq

/-- Modelled from the spec: the introspectable graph — a node list and
the display texts of the keys currently mid-computation (§4.7). -/
structure GraphIntrospectable where
  nodes : List GraphNode
  running : List (List Char)
deriving DecidableEq

/-- Index of the committed node for `k` in the store's enumeration
order. -/
def keyIndexIn (store : List NodeEntry) (k : DiceKey) : Nat :=
  store.findIdx (fun e => e.key == k)

/-- `DiceLegacy::to_introspectable` (introspection/mod.rs line 37): the
read-only sweep over the node store producing the introspectable view;
indices are positions in the store's enumeration. -/
def DiceLegacy.to_introspectable (st : DiceLegacyState) : GraphIntrospectable :=
  { nodes := st.store.enum.map (fun p =>
      { index := p.1,
        keyType := keyTypeName p.2.key,
        keyText := displayKey p.2.key,
        deps := p.2.deps.map (keyIndexIn st.store) }),
    running := st.running.map displayKey }

/-- Placeholder state of the modern engine implementation (its
introspection is unimplemented in this snapshot). -/
structure DiceModernState where
  placeholder : Unit
deriving DecidableEq

/-- `DiceImplementation` from dice: the tagged choice of backing
engine. -/
inductive DiceImplementation where
  | Legacy : DiceLegacyState → DiceImplementation
  | Modern : DiceModernState → DiceImplementation

/-- `Dice` holds the selected implementation variant. -/
structure Dice where
  implementation : DiceImplementation

/-- `Dice::to_introspectable` (introspection/mod.rs line 26): dispatch
on the variant; the `Modern` arm is `unimplemented!("todo")`, embedded
as `none`. -/
def Dice.to_introspectable (dice : Dice) : Option GraphIntrospectable :=
  match dice.implementation with
  | .Legacy d => some (DiceLegacy.to_introspectable d)
  | .Modern _ => none

/-- All directed edges of the view as (from-index, to-index) pairs. -/
def edgePairs (g : GraphIntrospectable) : List (Nat × Nat) :=
  (g.nodes.map (fun n => n.deps.map (fun d => (n.index, d)))).flatten

/-- Lexicographic comparison of index pairs. -/
def pairLe (p q : Nat × Nat) : Bool :=
  Nat.blt p.1 q.1 || (p.1 == q.1 && Nat.ble p.2 q.2)

/-- Ordered insertion for `sortPairs`. -/
def insertPair (p : Nat × Nat) : List (Nat × Nat) → List (Nat × Nat)
  | [] => [p]
  | q :: qs => if pairLe p q then p :: q :: qs else q :: insertPair p qs

/-- Insertion sort of index pairs; equal sorted lists mean equal
multisets, i.e. equality as unordered edge collections. -/
def sortPairs (l : List (Nat × Nat)) : List (Nat × Nat) :=
  l.foldr insertPair []

/-- Index of the view node carrying display text `t` (the test's
`node_map` lookup). -/
def nodeIndexByText (g : GraphIntrospectable) (t : List Char) : Nat :=
  ((g.nodes.find? (fun n => n.keyText == t)).map GraphNode.index).getD 1000000

/-! ### The serialization-test scenario -/

/-- The engine of `test_serialization`: cycle detection disabled,
explicit-cancel spawner. -/
def scenarioEngine : DiceLegacyState :=
  DiceLegacy.build DetectCycles.Disabled WhichSpawner.ExplicitCancel

/-- The engine state after computing `KeyA(3)` at the committed
version. -/
def scenarioState : DiceLegacyState := evalKey 8 (DiceKey.KeyA 3) scenarioEngine

/-- The introspectable view of the scenario state. -/
def scenarioGraph : GraphIntrospectable := DiceLegacy.to_introspectable scenarioState

/-- A concrete engine built over the modern implementation variant. -/
def diceModernSample : Dice := ⟨DiceImplementation.Modern ⟨()⟩⟩

/-! ### The streaming text encoding -/

/-- Modelled from the spec: one node record of the text format,
`<index>\t<key-type>\t<key-display-text>` (§6). -/
def nodeLine (n : GraphNode) : List Char :=
  natChars n.index ++ '\t' :: (n.keyType ++ '\t' :: n.keyText)

/-- Modelled from the spec: one edge record of the text format,
`<from-index>\t<to-index>` (§6). -/
def edgeLine (e : Nat × Nat) : List Char :=
  natChars e.1 ++ '\t' :: natChars e.2

/-- One record per line, each line terminated by a newline. -/
def joinLines (ls : List (List Char)) : List Char :=
  (ls.map (fun l => l ++ ['\n'])).flatten

/-- Modelled from the spec: `serialize_graph` — the streaming text
encoding missing from this snapshot: a node record stream, an edge
record stream, and the display texts of the running keys (§4.7, §6; the
source test consumes exactly these three outputs). -/
def serialize_graph (g : GraphIntrospectable) :
    List Char × List Char × List (List Char) :=
  (joinLines (g.nodes.map nodeLine),
   joinLines ((edgePairs g).map edgeLine),
   g.running)

/-! ### Read-only introspection (C6) -/

/-- Introspection followed by serialization, as a state transformer: the
produced view and streams together with the engine state the operation
leaves behind (`&self` receivers and a read lock in the source). -/
def introspect_and_serialize (st : DiceLegacyState) :
    (GraphIntrospectable × (List Char × List Char × List (List Char)))
      × DiceLegacyState :=
  ((DiceLegacy.to_introspectable st,
    serialize_graph (DiceLegacy.to_introspectable st)), st)

/-! ### The compact binary encoding (C2) -/

/-- Modelled from the spec: binary encoding of a display text — length
prefix then the character codes (§6 binary format). -/
def encodeChars (cs : List Char) : List Nat :=
  cs.length :: cs.map Char.toNat

/-- Modelled from the spec: binary encoding of a dependency index list —
length prefix then the indices (§6 binary format). -/
def encodeNats (ds : List Nat) : List Nat :=
  ds.length :: ds

/-- Modelled from the spec: the binary record of one node — index,
key-type tag, display text, dependency index list (§6 binary format). -/
def encodeNode (n : GraphNode) : List Nat :=
  n.index :: (encodeChars n.keyType ++ encodeChars n.keyText ++ encodeNats n.deps)

/-- Modelled from the spec: `serialize_dense_graph` — the whole-graph
binary snapshot: the node records then the running keys, each sequence
length-prefixed (§4.7, §6). -/
def serialize_dense_graph (g : GraphIntrospectable) : List Nat :=
  g.nodes.length
    :: ((g.nodes.map encodeNode).flatten
      ++ g.running.length :: (g.running.map encodeChars).flatten)

/-- Decoder for an encoded display text. -/
def decodeChars : List Nat → Option (List Char × List Nat)
  | [] => none
  | len :: rest =>
    if len ≤ rest.length then
      some ((rest.take len).map Char.ofNat, rest.drop len)
    else none

/-- Decoder for an encoded dependency index list. -/
def decodeNats : List Nat → Option (List Nat × List Nat)
  | [] => none
  | len :: rest =>
    if len ≤ rest.length then some (rest.take len, rest.drop len) else none

/-- Decoder for one binary node record. -/
def decodeNode (tokens : List Nat) : Option (GraphNode × List Nat) :=
  match tokens with
  | [] => none
  | idx :: rest =>
    match decodeChars rest with
    | none => none
    | some (kt, r1) =>
      match decodeChars r1 with
      | none => none
      | some (kx, r2) =>
        match decodeNats r2 with
        | none => none
        | some (ds, r3) => some (⟨idx, kt, kx, ds⟩, r3)

/-- Decode a known number of consecutive records. -/
def decodeCount {α : Type} (dec : List Nat → Option (α × List Nat)) :
    Nat → List Nat → Option (List α × List Nat)
  | 0, rest => some ([], rest)
  | k + 1, rest =>
    match dec rest with
    | none => none
    | some (a, r1) =>
      match decodeCount dec k r1 with
      | none => none
      | some (as, r2) => some (a :: as, r2)

/-- Decoder for the whole-graph binary snapshot. -/
def deserialize_dense_graph (tokens : List Nat) : Option GraphIntrospectable :=
  match tokens with
  | [] => none
  | ncount :: rest =>
    match decodeCount decodeNode ncount rest with
    | none => none
    | some (ns, r1) =>
      match r1 with
      | [] => none
      | rcount :: r2 =>
        match decodeCount decodeChars rcount r2 with
        | none => none
        | some (rs, r3) => if r3 = [] then some ⟨ns, rs⟩ else none

/-! ## Theorems -/

theorem splitOnChar_ne_nil (c : Char) (s : List Char) : splitOnChar c s ≠ [] := by
  induction s with
  | nil => simp [splitOnChar]
  | cons d rest ih =>
    simp only [splitOnChar]
    split
    · simp
    · split
      · simp
      · simp

/-- Splitting a separator-free field returns just that field. -/
theorem splitOnChar_of_not_mem {c : Char} {s : List Char} (h : c ∉ s) :
    splitOnChar c s = [s] := by
  induction s with
  | nil => rfl
  | cons d rest ih =>
    have hd : d ≠ c := fun hdc => h (hdc ▸ List.mem_cons_self d rest)
    have hrest : c ∉ rest := fun hc => h (List.mem_cons_of_mem d hc)
    simp only [splitOnChar, if_neg hd, ih hrest]

/-- Peeling one separator-free field followed by the separator off the
front of a split. -/
theorem splitOnChar_append_cons {c : Char} {w : List Char} (rest : List Char)
    (h : c ∉ w) :
    splitOnChar c (w ++ c :: rest) = w :: splitOnChar c rest := by
  induction w with
  | nil => simp [splitOnChar]
  | cons d ws ih =>
    have hd : d ≠ c := fun hdc => h (hdc ▸ List.mem_cons_self d ws)
    have hws : c ∉ ws := fun hc => h (List.mem_cons_of_mem d hc)
    simp only [List.cons_append, splitOnChar, if_neg hd]
    rw [List.append_eq, ih hws]

theorem joinSp_singleton (w : List Char) : joinSp [w] = w := rfl

theorem joinSp_ne_nil {cws : List (List Char)} (hne : cws ≠ [])
    (hw : ∀ w ∈ cws, w ≠ []) : joinSp cws ≠ [] := by
  match cws with
  | [] => exact absurd rfl hne
  | [w] => exact hw w (List.mem_singleton.mpr rfl)
  | w :: v :: ws =>
    have : w ≠ [] := hw w (List.mem_cons_self _ _)
    simp only [joinSp]
    intro hcontra
    exact this (List.append_eq_nil.mp hcontra).1

theorem joinSp_append_singleton {cws : List (List Char)} (hne : cws ≠ [])
    (w : List Char) : joinSp (cws ++ [w]) = joinSp cws ++ ' ' :: w := by
  induction cws with
  | nil => exact absurd rfl hne
  | cons u us ih =>
    cases us with
    | nil => rfl
    | cons v vs =>
      have h2 : joinSp (v :: (vs ++ [w])) = joinSp (v :: vs) ++ ' ' :: w := by
        simpa using ih (by simp)
      simp only [List.cons_append, joinSp, List.append_eq]
      rw [h2]
      simp [List.append_assoc]

/-- Splitting a space-joined non-empty list of space-free words recovers
the words. -/
theorem splitOnChar_joinSp {cws : List (List Char)} (hne : cws ≠ [])
    (hw : ∀ w ∈ cws, ' ' ∉ w) : splitOnChar ' ' (joinSp cws) = cws := by
  induction cws with
  | nil => exact absurd rfl hne
  | cons u us ih =>
    cases us with
    | nil => exact splitOnChar_of_not_mem (hw u (List.mem_cons_self _ _))
    | cons v vs =>
      have hrec : splitOnChar ' ' (joinSp (v :: vs)) = v :: vs :=
        ih (by simp) (fun w hwmem => hw w (List.mem_cons_of_mem u hwmem))
      simp only [joinSp]
      rw [splitOnChar_append_cons _ (hw u (List.mem_cons_self _ _)), hrec]

theorem words_to_lines_go_spec (width : Nat) :
    ∀ ws cws : List (List Char), (∀ w ∈ ws, IsRenderWord w) →
      (∀ w ∈ cws, IsRenderWord w) →
      (2 ≤ cws.length → (joinSp cws).length ≤ width) →
      ((words_to_lines_go width ws (joinSp cws)).map (splitOnChar ' ')).flatten
          = cws ++ ws
        ∧ ∀ l ∈ words_to_lines_go width ws (joinSp cws),
            l ≠ [] ∧ (2 ≤ (splitOnChar ' ' l).length → l.length ≤ width) := by
  intro ws
  induction ws with
  | nil =>
    intro cws _ hcws hlen
    by_cases hne : cws = []
    · subst hne
      simp [words_to_lines_go, joinSp]
    · have hjoin : joinSp cws ≠ [] :=
        joinSp_ne_nil hne (fun w hw => (hcws w hw).1)
      have hsplit : splitOnChar ' ' (joinSp cws) = cws :=
        splitOnChar_joinSp hne (fun w hw => (hcws w hw).2.1)
      simp only [words_to_lines_go, List.isEmpty_iff, if_neg hjoin]
      refine ⟨by simp [hsplit], ?_⟩
      intro l hl
      rw [List.mem_singleton] at hl
      subst hl
      exact ⟨hjoin, fun h2 => hlen (by rw [← hsplit]; exact h2)⟩
  | cons w ws ih =>
    intro cws hws hcws hlen
    have hw : IsRenderWord w := hws w (List.mem_cons_self _ _)
    have hws' : ∀ u ∈ ws, IsRenderWord u :=
      fun u hu => hws u (List.mem_cons_of_mem _ hu)
    by_cases hne : cws = []
    · subst hne
      have step : words_to_lines_go width (w :: ws) (joinSp []) =
          words_to_lines_go width ws (joinSp [w]) := by
        simp [words_to_lines_go, joinSp]
      rw [step]
      have := ih [w] hws' (by simpa using hw) (by simp)
      simpa using this
    · have hjoin : joinSp cws ≠ [] :=
        joinSp_ne_nil hne (fun u hu => (hcws u hu).1)
      have hsplit : splitOnChar ' ' (joinSp cws) = cws :=
        splitOnChar_joinSp hne (fun u hu => (hcws u hu).2.1)
      by_cases hover : (joinSp cws).length + 1 + w.length > width
      · have step : words_to_lines_go width (w :: ws) (joinSp cws) =
            joinSp cws :: words_to_lines_go width ws (joinSp [w]) := by
          simp only [words_to_lines_go, List.isEmpty_iff, if_neg hjoin]
          rw [if_pos hover, joinSp_singleton]
        rw [step]
        have hrec := ih [w] hws' (by simpa using hw) (by simp)
        refine ⟨?_, ?_⟩
        · simp only [List.map_cons, List.flatten_cons, hsplit, hrec.1]
          simp
        · intro l hl
          rcases List.mem_cons.mp hl with rfl | hl
          · exact ⟨hjoin, fun h2 => hlen (by rw [← hsplit]; exact h2)⟩
          · exact hrec.2 l hl
      · have step : words_to_lines_go width (w :: ws) (joinSp cws) =
            words_to_lines_go width ws (joinSp (cws ++ [w])) := by
          simp only [words_to_lines_go, List.isEmpty_iff, if_neg hjoin]
          rw [if_neg hover, joinSp_append_singleton hne]
        rw [step]
        have hlen' : 2 ≤ (cws ++ [w]).length →
            (joinSp (cws ++ [w])).length ≤ width := by
          intro _
          rw [joinSp_append_singleton hne]
          simp only [List.length_append, List.length_cons]
          omega
        have hcws' : ∀ u ∈ cws ++ [w], IsRenderWord u := by
          intro u hu
          rcases List.mem_append.mp hu with hu | hu
          · exact hcws u hu
          · rw [List.mem_singleton] at hu; subst hu; exact hw
        have hrec := ih (cws ++ [w]) hws' hcws' hlen'
        refine ⟨?_, hrec.2⟩
        rw [hrec.1, List.append_assoc]
        simp

/-- C8: `words_to_lines` partitions its input words into non-empty lines:
splitting every line on spaces and concatenating recovers the words in
order, and any line holding two or more words fits in `width`. -/
theorem words_to_lines_correct (ws : List (List Char)) (width : Nat)
    (h : ∀ w ∈ ws, IsRenderWord w) :
    ((words_to_lines ws width).map (splitOnChar ' ')).flatten = ws
      ∧ (∀ l ∈ words_to_lines ws width, l ≠ [])
      ∧ (∀ l ∈ words_to_lines ws width,
          2 ≤ (splitOnChar ' ' l).length → l.length ≤ width) := by
  have := words_to_lines_go_spec width ws [] h (by simp) (by simp)
  unfold words_to_lines
  rw [show ([] : List Char) = joinSp [] from rfl]
  exact ⟨by simpa using this.1, fun l hl => (this.2 l hl).1,
    fun l hl => (this.2 l hl).2⟩

/-- Witness for C8 at a concrete input. -/
theorem words_to_lines_correct_witness :
    (∀ w ∈ [['a', 'b'], ['c', 'd'], ['x']], IsRenderWord w)
      ∧ ((words_to_lines [['a', 'b'], ['c', 'd'], ['x']] 5).map
            (splitOnChar ' ')).flatten = [['a', 'b'], ['c', 'd'], ['x']] :=
  ⟨by decide, (words_to_lines_correct [['a', 'b'], ['c', 'd'], ['x']] 5
    (by decide)).1⟩

theorem filter_map_pair {α β : Type} (f : α → β) (p : β → Bool) (l : List α) :
    (l.map (fun a => (a, f a))).filter (fun q => p q.2)
      = (l.filter (fun a => p (f a))).map (fun a => (a, f a)) := by
  induction l with
  | nil => rfl
  | cons a as ih =>
    by_cases hp : p (f a)
    · simp [List.filter_cons, hp, ih]
    · simp [List.filter_cons, hp, ih]

/-- C9: `io_in_flight_non_zero_counters` yields exactly the keys of
`IoCounterKey::ALL` whose snapshot counter is strictly positive, paired
with that counter, in `ALL` order. -/
theorem io_in_flight_non_zero_counters_correct (snapshot : Snapshot) :
    io_in_flight_non_zero_counters snapshot
      = (IoCounterKey.ALL.filter
          (fun key => 0 < counterValue snapshot key)).map
            (fun key => (key, counterValue snapshot key)) := by
  unfold io_in_flight_non_zero_counters
  exact filter_map_pair (counterValue snapshot) (fun n => 0 < n) IoCounterKey.ALL

/-- C10: whenever `unpack_value` accepts a value, `unpack` on the result
reaches a `Left`/`Right` answer, never the `unreachable!` branch, and the
downcast that succeeded during `unpack_value` is the one that succeeds
again during `unpack`. -/
theorem unpack_after_unpack_value {T F O : Type}
    (value : StarlarkValue T F O) (v : ValueOfComplex T F O)
    (h : unpack_value value = some v) :
    (∃ t, downcastMut value = some t ∧ unpack v = some (Sum.inl t))
      ∨ (downcastMut value = none
          ∧ ∃ f, downcastFrozen value = some f ∧ unpack v = some (Sum.inr f)) := by
  unfold unpack_value at h
  split at h
  · next hcast =>
    have hv : v = ⟨value⟩ := (Option.some_inj.mp h).symm
    subst hv
    cases value with
    | mutComplex t => exact Or.inl ⟨t, rfl, rfl⟩
    | frozenComplex f => exact Or.inr ⟨rfl, f, rfl, rfl⟩
    | otherValue o =>
      exact absurd hcast (by simp [downcastMut, downcastFrozen])
  · exact absurd h (by simp)

/-- Witness for C10 at a concrete instantiation. -/
theorem unpack_after_unpack_value_witness :
    unpack_value sampleValue = some sampleWrapped
      ∧ ((∃ t, downcastMut sampleValue = some t
            ∧ unpack sampleWrapped = some (Sum.inl t))
          ∨ (downcastMut sampleValue = none
              ∧ ∃ f, downcastFrozen sampleValue = some f
                ∧ unpack sampleWrapped = some (Sum.inr f))) :=
  ⟨by simp [unpack_value, downcastMut, sampleValue, sampleWrapped],
    unpack_after_unpack_value sampleValue sampleWrapped
      (by simp [unpack_value, downcastMut, sampleValue, sampleWrapped])⟩

theorem natCharsAux_digits (fuel : Nat) :
    ∀ n c, c ∈ natCharsAux fuel n → ∃ d, d < 10 ∧ c = Char.ofNat (48 + d) := by
  induction fuel with
  | zero => intro n c hc; simp [natCharsAux] at hc
  | succ fuel ih =>
    intro n c hc
    by_cases hn : n = 0
    · simp [natCharsAux, hn] at hc
    · rw [natCharsAux, if_neg hn] at hc
      rcases List.mem_append.mp hc with hc | hc
      · exact ih (n / 10) c hc
      · rw [List.mem_singleton] at hc
        exact ⟨n % 10, Nat.mod_lt n (by omega), hc⟩

/-- Decimal renderings never contain the tab or newline separators. -/
theorem natChars_no_sep (n : Nat) :
    ∀ c ∈ natChars n, c ≠ '\t' ∧ c ≠ '\n' := by
  intro c hc
  unfold natChars at hc
  split at hc
  · rw [List.mem_singleton] at hc
    subst hc
    exact ⟨by decide, by decide⟩
  · obtain ⟨d, hd, rfl⟩ := natCharsAux_digits (n + 1) n c hc
    interval_cases d <;> exact ⟨by decide, by decide⟩

/-- C1: after evaluating `KeyA(3)` over the chain
`A(3)→A(2)→A(1)→A(0)→B`, the serialized view's edges are exactly
{(A3,A2), (A2,A1), (A1,A0), (A0,B)} as an unordered duplicate-free set
of node-index pairs, and no key is mid-computation. -/
theorem scenario_edge_list_exact :
    sortPairs (edgePairs scenarioGraph) =
      sortPairs
        [(nodeIndexByText scenarioGraph (displayKey (DiceKey.KeyA 3)),
          nodeIndexByText scenarioGraph (displayKey (DiceKey.KeyA 2))),
         (nodeIndexByText scenarioGraph (displayKey (DiceKey.KeyA 2)),
          nodeIndexByText scenarioGraph (displayKey (DiceKey.KeyA 1))),
         (nodeIndexByText scenarioGraph (displayKey (DiceKey.KeyA 1)),
          nodeIndexByText scenarioGraph (displayKey (DiceKey.KeyA 0))),
         (nodeIndexByText scenarioGraph (displayKey (DiceKey.KeyA 0)),
          nodeIndexByText scenarioGraph (displayKey DiceKey.KeyB))]
      ∧ (edgePairs scenarioGraph).Nodup
      ∧ scenarioGraph.running = [] := by
  decide

/-- C3 counterexample: on an engine built with the `Modern` variant,
`to_introspectable` hits `unimplemented!("todo")` (embedded as `none`)
instead of returning a view, so the variant is observable through the
interface. -/
theorem to_introspectable_modern_panics :
    Dice.to_introspectable diceModernSample = none := rfl

/-- C3 amended: for every engine built with the `Legacy` variant,
`to_introspectable` returns the introspectable view of the graph; the
`Modern` variant's introspection is unimplemented and panics. -/
theorem to_introspectable_legacy_returns_view (st : DiceLegacyState) :
    Dice.to_introspectable ⟨DiceImplementation.Legacy st⟩
      = some (DiceLegacy.to_introspectable st) := rfl

/-- C5: a computation that requests `X`, `Y`, `Z` in that order with `Z`
requested twice commits the edge set `[X, Y, Z]`: one entry per key,
first-occurrence order, no duplicate. -/
theorem recordDeps_requests_dedup {α : Type} [DecidableEq α] (X Y Z : α)
    (hXY : X ≠ Y) (hXZ : X ≠ Z) (hYZ : Y ≠ Z) :
    recordDeps [X, Y, Z, Z] = [X, Y, Z]
      ∧ (recordDeps [X, Y, Z, Z]).Nodup := by
  have h : recordDeps [X, Y, Z, Z] = [X, Y, Z] := by
    simp [recordDeps, recordDep, List.foldl, hXY.symm, hXZ.symm, hYZ.symm]
  exact ⟨h, by rw [h]; simp [hXY, hXZ, hYZ]⟩

/-- Witness for C5 at three concrete distinct keys. -/
theorem recordDeps_requests_dedup_witness :
    ((0 : Nat) ≠ 1 ∧ (0 : Nat) ≠ 2 ∧ (1 : Nat) ≠ 2)
      ∧ recordDeps [0, 1, 2, 2] = [0, 1, 2]
      ∧ (recordDeps [(0 : Nat), 1, 2, 2]).Nodup :=
  ⟨by decide,
    recordDeps_requests_dedup 0 1 2 (by decide) (by decide) (by decide)⟩

/-- C7: engine construction takes the two toggles independently — the
cycle-detection values are exactly `{Enabled, Disabled}`, the
cancellation-policy values exactly `{RunToCompletion, ExplicitCancel}`,
and every combination builds an engine recording both choices. -/
theorem build_accepts_both_toggles (dc : DetectCycles) (ws : WhichSpawner) :
    (DiceLegacy.build dc ws).detectCycles = dc
      ∧ (DiceLegacy.build dc ws).whichSpawner = ws
      ∧ (dc = DetectCycles.Enabled ∨ dc = DetectCycles.Disabled)
      ∧ (ws = WhichSpawner.RunToCompletion ∨ ws = WhichSpawner.ExplicitCancel) := by
  refine ⟨rfl, rfl, ?_, ?_⟩
  · cases dc
    · exact Or.inl rfl
    · exact Or.inr rfl
  · cases ws
    · exact Or.inl rfl
    · exact Or.inr rfl

theorem natChars_not_tab (n : Nat) : '\t' ∉ natChars n := by
  intro h
  exact (natChars_no_sep n _ h).1 rfl

theorem natChars_not_newline (n : Nat) : '\n' ∉ natChars n := by
  intro h
  exact (natChars_no_sep n _ h).2 rfl

/-- Splitting a newline-terminated record stream on newlines gives the
records back (plus the empty field after the final newline). -/
theorem splitOnChar_joinLines {c : Char} {ls : List (List Char)}
    (h : ∀ l ∈ ls, c ∉ l) :
    splitOnChar c ((ls.map (fun l => l ++ [c])).flatten) = ls ++ [[]] := by
  induction ls with
  | nil => simp [splitOnChar]
  | cons l rest ih =>
    have hl : c ∉ l := h l (List.mem_cons_self _ _)
    have hrest : ∀ u ∈ rest, c ∉ u := fun u hu => h u (List.mem_cons_of_mem _ hu)
    simp only [List.map_cons, List.flatten_cons, List.append_assoc,
      List.singleton_append]
    rw [splitOnChar_append_cons _ hl, ih hrest]
    rfl

theorem splitOnChar_nodeLine {n : GraphNode}
    (hkt : '\t' ∉ n.keyType) (hkx : '\t' ∉ n.keyText) :
    splitOnChar '\t' (nodeLine n) = [natChars n.index, n.keyType, n.keyText] := by
  unfold nodeLine
  rw [splitOnChar_append_cons _ (natChars_not_tab n.index),
    splitOnChar_append_cons _ hkt, splitOnChar_of_not_mem hkx]

theorem splitOnChar_edgeLine (e : Nat × Nat) :
    splitOnChar '\t' (edgeLine e) = [natChars e.1, natChars e.2] := by
  unfold edgeLine
  rw [splitOnChar_append_cons _ (natChars_not_tab e.1),
    splitOnChar_of_not_mem (natChars_not_tab e.2)]

theorem nodeLine_no_newline {n : GraphNode}
    (hkt : '\n' ∉ n.keyType) (hkx : '\n' ∉ n.keyText) :
    '\n' ∉ nodeLine n := by
  unfold nodeLine
  intro hmem
  rcases List.mem_append.mp hmem with hmem | hmem
  · exact natChars_not_newline n.index hmem
  · rcases List.mem_cons.mp hmem with heq | hmem
    · exact absurd heq (by decide)
    · rcases List.mem_append.mp hmem with hmem | hmem
      · exact hkt hmem
      · rcases List.mem_cons.mp hmem with heq | hmem
        · exact absurd heq (by decide)
        · exact hkx hmem

theorem edgeLine_no_newline (e : Nat × Nat) : '\n' ∉ edgeLine e := by
  unfold edgeLine
  intro hmem
  rcases List.mem_append.mp hmem with hmem | hmem
  · exact natChars_not_newline e.1 hmem
  · rcases List.mem_cons.mp hmem with heq | hmem
    · exact absurd heq (by decide)
    · exact natChars_not_newline e.2 hmem

/-- C4: `serialize_graph` writes two record streams — per node one line
of three tab-separated fields (index, key-type tag, key display text, in
that order) and per edge one line of two tab-separated fields
(from-index, to-index). -/
theorem serialize_graph_text_format (g : GraphIntrospectable)
    (hsep : ∀ n ∈ g.nodes, ('\t' ∉ n.keyType ∧ '\n' ∉ n.keyType)
        ∧ ('\t' ∉ n.keyText ∧ '\n' ∉ n.keyText)) :
    splitOnChar '\n' (serialize_graph g).1 = g.nodes.map nodeLine ++ [[]]
      ∧ (∀ n ∈ g.nodes, splitOnChar '\t' (nodeLine n)
          = [natChars n.index, n.keyType, n.keyText])
      ∧ splitOnChar '\n' (serialize_graph g).2.1
          = (edgePairs g).map edgeLine ++ [[]]
      ∧ (∀ e ∈ edgePairs g, splitOnChar '\t' (edgeLine e)
          = [natChars e.1, natChars e.2]) := by
  refine ⟨?_, ?_, ?_, ?_⟩
  · show splitOnChar '\n' (joinLines (g.nodes.map nodeLine)) = _
    unfold joinLines
    rw [splitOnChar_joinLines]
    intro l hl
    rcases List.mem_map.mp hl with ⟨n, hn, rfl⟩
    exact nodeLine_no_newline (hsep n hn).1.2 (hsep n hn).2.2
  · intro n hn
    exact splitOnChar_nodeLine (hsep n hn).1.1 (hsep n hn).2.1
  · show splitOnChar '\n' (joinLines ((edgePairs g).map edgeLine)) = _
    unfold joinLines
    rw [splitOnChar_joinLines]
    intro l hl
    rcases List.mem_map.mp hl with ⟨e, _, rfl⟩
    exact edgeLine_no_newline e
  · intro e _
    exact splitOnChar_edgeLine e

/-- Witness for C4: the scenario graph's key texts are tab- and
newline-free, and its node stream splits into one record per node. -/
theorem serialize_graph_text_format_witness :
    (∀ n ∈ scenarioGraph.nodes, ('\t' ∉ n.keyType ∧ '\n' ∉ n.keyType)
        ∧ ('\t' ∉ n.keyText ∧ '\n' ∉ n.keyText))
      ∧ splitOnChar '\n' (serialize_graph scenarioGraph).1
          = scenarioGraph.nodes.map nodeLine ++ [[]] :=
  ⟨by decide, (serialize_graph_text_format scenarioGraph (by decide)).1⟩

/-- C6: introspection is read-only — taking the introspectable view and
serializing it leaves the node store (keys, values, versions, edge
sets), the mid-computation table, and every other engine field
unchanged. -/
theorem introspection_read_only (st : DiceLegacyState) :
    (introspect_and_serialize st).2.store = st.store
      ∧ (introspect_and_serialize st).2.running = st.running
      ∧ (introspect_and_serialize st).2.version = st.version
      ∧ (introspect_and_serialize st).2 = st :=
  ⟨rfl, rfl, rfl, rfl⟩

theorem decodeChars_encodeChars (cs : List Char) (rest : List Nat) :
    decodeChars (encodeChars cs ++ rest) = some (cs, rest) := by
  unfold encodeChars decodeChars
  simp only [List.cons_append]
  rw [if_pos]
  · have htake : (cs.map Char.toNat ++ rest).take cs.length = cs.map Char.toNat := by
      rw [← List.length_map cs Char.toNat]
      exact List.take_left _ _
    have hdrop : (cs.map Char.toNat ++ rest).drop cs.length = rest := by
      rw [← List.length_map cs Char.toNat]
      exact List.drop_left _ _
    rw [htake, hdrop, List.map_map]
    have hcomp : Char.ofNat ∘ Char.toNat = id := funext Char.ofNat_toNat
    rw [hcomp, List.map_id]
  · simp

theorem decodeNats_encodeNats (ds : List Nat) (rest : List Nat) :
    decodeNats (encodeNats ds ++ rest) = some (ds, rest) := by
  unfold encodeNats decodeNats
  simp only [List.cons_append]
  rw [if_pos]
  · rw [List.take_left, List.drop_left]
  · simp

theorem decodeNode_encodeNode (n : GraphNode) (rest : List Nat) :
    decodeNode (encodeNode n ++ rest) = some (n, rest) := by
  unfold encodeNode decodeNode
  simp [List.cons_append, List.append_assoc, decodeChars_encodeChars,
    decodeNats_encodeNats]

theorem decodeCount_encode {α : Type} (dec : List Nat → Option (α × List Nat))
    (enc : α → List Nat)
    (hroundtrip : ∀ a rest, dec (enc a ++ rest) = some (a, rest)) :
    ∀ (l : List α) (rest : List Nat),
      decodeCount dec l.length ((l.map enc).flatten ++ rest) = some (l, rest) := by
  intro l
  induction l with
  | nil => intro rest; simp [decodeCount]
  | cons a as ih =>
    intro rest
    simp only [List.map_cons, List.flatten_cons, List.length_cons,
      List.append_assoc]
    unfold decodeCount
    simp [hroundtrip, ih]

/-- C2: serializing any introspectable graph to the compact binary
format and deserializing reproduces the same logical view — the node
count, the edge list as an unordered set of index pairs, and the
running set. -/
theorem serialize_dense_round_trip (g : GraphIntrospectable) :
    deserialize_dense_graph (serialize_dense_graph g) = some g
      ∧ ∃ g2, deserialize_dense_graph (serialize_dense_graph g) = some g2
          ∧ g2.nodes.length = g.nodes.length
          ∧ sortPairs (edgePairs g2) = sortPairs (edgePairs g)
          ∧ g2.running = g.running := by
  have h : deserialize_dense_graph (serialize_dense_graph g) = some g := by
    unfold serialize_dense_graph deserialize_dense_graph
    dsimp only
    rw [decodeCount_encode decodeNode encodeNode decodeNode_encodeNode]
    dsimp only
    have h2 := decodeCount_encode decodeChars encodeChars
      decodeChars_encodeChars g.running []
    rw [List.append_nil] at h2
    rw [h2]
    rfl
  exact ⟨h, g, h, rfl, rfl, rfl⟩

end Buck2
